import Mathlib

namespace AlexaPplx

open scoped List

/-- Whitespace as matched by the regex class \s and str.strip in the source. -/
def isWs (c : Char) : Bool :=
  c = ' ' || c = '\t' || c = '\n' || c = '\r' || c = '\x0b' || c = '\x0c' ||
  ('\x1c' ≤ c && c ≤ '\x1f') || c = '\x85' || c = '\xa0' ||
  c = ' ' || (' ' ≤ c && c ≤ ' ') ||
  c = ' ' || c = ' ' || c = ' ' || c = ' ' || c = '　'

/-- The markdown characters the source removes. -/
def mdChars : List Char := ['*', '_', '`', '#', '[', ']', '(', ')']

def stripMd (cs : List Char) : List Char := cs.filter (fun c => !(mdChars.contains c))

/-- State of the scan that models re.sub of a leading bullet at line starts. -/
inductive BState
  | nl
  | ls (acc : List Char)
  | ad (lastNL : Bool)

def bulletGo : BState → List Char → List Char
  | .nl, [] => []
  | .ls acc, [] => acc.reverse
  | .ad _, [] => []
  | .nl, c :: cs => c :: bulletGo (if c = '\n' then .ls [] else .nl) cs
  | .ls acc, c :: cs =>
      if isWs c then bulletGo (.ls (c :: acc)) cs
      else if c = '-' then bulletGo (.ad false) cs
      else acc.reverse ++ c :: bulletGo .nl cs
  | .ad lastNL, c :: cs =>
      if isWs c then bulletGo (.ad (c = '\n')) cs
      else if lastNL && c = '-' then bulletGo (.ad false) cs
      else c :: bulletGo .nl cs

def stripBullets (cs : List Char) : List Char := bulletGo (.ls []) cs

def replNL (cs : List Char) : List Char := cs.map (fun c => if c = '\n' then ' ' else c)

def collapseAux : Bool → List Char → List Char
  | _, [] => []
  | prevWs, c :: cs =>
      if isWs c then
        if prevWs then collapseAux true cs else ' ' :: collapseAux true cs
      else c :: collapseAux false cs

def collapseWs (cs : List Char) : List Char := collapseAux false cs

def ltrim (cs : List Char) : List Char := cs.dropWhile isWs

def rtrim (cs : List Char) : List Char := ((cs.reverse.dropWhile isWs)).reverse

def strip (cs : List Char) : List Char := rtrim (ltrim cs)

def truncSuffix : List Char := ("... Let me know if you want more.").data

def normalizeText (cs : List Char) : List Char :=
  strip (collapseWs (replNL (stripBullets (stripMd cs))))

def clean_text (cs : List Char) : List Char :=
  if cs = [] then cs
  else
    let t := normalizeText cs
    if 700 < t.length then rtrim (t.take 700) ++ truncSuffix else t

/-! ### Event data model

An Alexa event is a JSON mapping. Only the parts the source reads are
modelled: `request.type`, `request.intent.name`, `request.intent.slots`.
A field that the source reads with `.get(k)` or `.get(k, {})` is an
`Option`; a JSON dictionary read in insertion order is an association
list. A slot entry itself can be the JSON null (the source writes
`slots.get(key)` and then tests `if slot`), so an entry is an
`Option SlotInfo`; `none` is a null entry. -/

structure SlotInfo where
  value : Option (List Char)
  deriving DecidableEq

abbrev Slots := List (List Char × Option SlotInfo)

structure Intent where
  name : Option (List Char)
  slots : Option Slots
  deriving DecidableEq

structure Request where
  rtype : Option (List Char)
  intent : Option Intent
  deriving DecidableEq

structure Event where
  request : Option Request
  deriving DecidableEq

def requestType (e : Event) : Option (List Char) := e.request.bind Request.rtype

def slotsOf (e : Event) : Slots :=
  (((e.request.bind Request.intent).bind Intent.slots)).getD []

/-- `slots.get(k)` on the insertion-ordered dictionary: the entry stored at
key `k`, or `none` when the key is absent. -/
def dictGet (slots : Slots) (k : List Char) : Option (Option SlotInfo) :=
  (slots.find? (fun p => p.1 = k)).map Prod.snd

/-- `if slot and slot.get("value")` at key `k`: the value of the slot stored
at `k` when that entry is a dictionary with a non-empty value. -/
def slotTruthyValue (slots : Slots) (k : List Char) : Option (List Char) :=
  match dictGet slots k with
  | some (some si) =>
      match si.value with
      | some (c :: cs) => some (c :: cs)
      | _ => none
  | _ => none

/-- The fallback loop `for slot_name, slot in slots.items()`: the first slot
with a truthy value, in stored order. A null entry makes the loop evaluate
`None.get("value")`, an AttributeError, modelled as `.error ()`. -/
def fallbackScan : Slots → Except Unit (Option (List Char))
  | [] => .ok none
  | (_, none) :: _ => .error ()
  | (_, some si) :: rest =>
      match si.value with
      | some (c :: cs) => .ok (some (c :: cs))
      | _ => fallbackScan rest

def intentRequestType : List Char := ("IntentRequest").data

def launchRequestType : List Char := ("LaunchRequest").data

/-- `extract_query` of the source. `.error ()` models a raised
AttributeError. -/
def extract_query (e : Event) : Except Unit (Option (List Char)) :=
  if requestType e = some intentRequestType then
    match slotTruthyValue (slotsOf e) (("query").data) with
    | some v => .ok (some v)
    | none =>
        match slotTruthyValue (slotsOf e) (("Query").data) with
        | some v => .ok (some v)
        | none => fallbackScan (slotsOf e)
  else .ok none

/-- Every slot entry of the event is a dictionary (no JSON null entries). -/
def wellFormedSlots (e : Event) : Bool := (slotsOf e).all (fun p => p.2.isSome)

/-! ### Upstream client -/

def notConfiguredMsg : List Char :=
  ("Perplexity API key is not configured. Please set the PERPLEXITY_API_KEY environment variable in Lambda.").data

def noUsefulMsg : List Char := ("I couldn't get a useful response from Perplexity.").data

def noContentMsg : List Char := ("Perplexity didn't return any content for this question.").data

def authFailMsg : List Char := ("Authentication with Perplexity failed. Please check your API key.").data

def problemMsg : List Char := ("I had a problem contacting Perplexity.").data

def unreachableMsg : List Char := ("I couldn't reach Perplexity right now. Please try again.").data

def unexpectedMsg : List Char := ("Something went wrong while processing your request.").data

structure PplxMessage where
  content : Option (List Char)
  deriving DecidableEq

structure PplxChoice where
  message : Option PplxMessage
  deriving DecidableEq

structure PplxResponse where
  choices : Option (List PplxChoice)
  deriving DecidableEq

/-- Outcome of the one outbound HTTP call, supplied as an oracle: the body
already parsed on transport-level success, or the exception the source
catches (HTTPError with its status code, URLError, anything else). -/
inductive NetOutcome
  | success (body : PplxResponse)
  | httpError (code : Nat)
  | urlError
  | otherError
  deriving DecidableEq

/-- `if not PERPLEXITY_API_KEY`: the configured credential is truthy. -/
def truthyKey : Option (List Char) → Bool
  | some (_ :: _) => true
  | _ => false

/-- `call_perplexity` of the source, with the credential and the network
outcome passed in explicitly. -/
def call_perplexity (key : Option (List Char)) (net : NetOutcome)
    (_query : List Char) : List Char :=
  if !(truthyKey key) then notConfiguredMsg
  else
    match net with
    | .success body =>
        match body.choices.getD [] with
        | [] => noUsefulMsg
        | c :: _ =>
            let content := ((c.message.getD ⟨none⟩).content).getD []
            if content = [] then noContentMsg else clean_text content
    | .httpError code => if code = 401 then authFailMsg else problemMsg
    | .urlError => unreachableMsg
    | .otherError => unexpectedMsg

/-! ### Response builder and dispatcher -/

structure OutputSpeech where
  otype : List Char
  text : List Char
  deriving DecidableEq

structure ResponseBody where
  outputSpeech : OutputSpeech
  shouldEndSession : Bool
  deriving DecidableEq

structure AlexaResponse where
  version : List Char
  response : ResponseBody
  deriving DecidableEq

/-- `speak` of the source: the fixed Alexa envelope around a text. -/
def speak (text : List Char) : AlexaResponse :=
  { version := ("1.0").data
    response :=
      { outputSpeech := { otype := ("PlainText").data, text := text }
        shouldEndSession := false } }

def greetingMsg : List Char :=
  ("Hi, I'm your Perplexity news agent. Ask me something like: what's the latest about OpenAI today?").data

def fallbackPromptMsg : List Char :=
  ("I didn't quite catch that. Try saying something like: tell me the latest about OpenAI.").data

def noTopicMsg : List Char :=
  ("I didn't get the topic. Try saying: tell me the latest about OpenAI.").data

def goodbyeMsg : List Char := ("Goodbye.").data

def fallbackIntentName : List Char := ("AMAZON.FallbackIntent").data

/-- `handler` of the source. `.error ()` models an uncaught exception
raised below it (the only one reachable is `extract_query`'s). -/
def intentNameOf (e : Event) : List Char :=
  ((e.request.bind Request.intent).bind Intent.name).getD []

def handler (key : Option (List Char)) (net : NetOutcome) (e : Event) :
    Except Unit AlexaResponse :=
  if requestType e = some launchRequestType then .ok (speak greetingMsg)
  else if requestType e = some intentRequestType then
    if intentNameOf e = fallbackIntentName then .ok (speak fallbackPromptMsg)
    else
      match extract_query e with
      | .error u => .error u
      | .ok q =>
          match q with
          | some (c :: cs) => .ok (speak (call_perplexity key net (c :: cs)))
          | _ => .ok (speak noTopicMsg)
  else .ok (speak goodbyeMsg)

deriving instance DecidableEq for Except

/-- An IntentRequest event whose slots dictionary stores a JSON null at
key "a": `{"request": {"type": "IntentRequest", "intent": {"name":
"AskIntent", "slots": {"a": null}}}}`. -/
def nullSlotEvent : Event :=
  { request := some
      { rtype := some intentRequestType
        intent := some
          { name := some (("AskIntent").data)
            slots := some [((("a").data), none)] } } }

/-- The spec's fallback: "scan all slots in their stored order and return
the first with a non-empty value; otherwise none". -/
def specFirstNonEmpty : Slots → Option (List Char)
  | [] => none
  | (_, some si) :: rest =>
      match si.value with
      | some (c :: cs) => some (c :: cs)
      | _ => specFirstNonEmpty rest
  | (_, none) :: rest => specFirstNonEmpty rest

/-- The extraction contract as the spec words it: prefer a slot literally
named "query" or "Query" with a non-empty value, else the first slot with
a non-empty value in stored order, else none. -/
def extractQuerySpec (slots : Slots) : Option (List Char) :=
  match slotTruthyValue slots (("query").data) with
  | some v => some v
  | none =>
      match slotTruthyValue slots (("Query").data) with
      | some v => some v
      | none => specFirstNonEmpty slots

/-- An IntentRequest event carrying both an unrelated valued slot and a
valued "query" slot. -/
def queryEvent : Event :=
  { request := some
      { rtype := some intentRequestType
        intent := some
          { name := some (("AskIntent").data)
            slots := some
              [((("topic").data), some { value := some (("news").data) }),
                ((("query").data), some { value := some (("openai").data) })] } } }

/-- The characters a scan state still owes to the output. -/
def pend : BState → List Char
  | .ls acc => acc.reverse
  | _ => []

/-! ### Shape predicates for sanitized text -/

/-- No two adjacent whitespace characters. -/
def noDoubleWs : List Char → Bool
  | [] => true
  | [_] => true
  | a :: b :: rest => (!(isWs a && isWs b)) && noDoubleWs (b :: rest)

/-- The first character, if any, is not whitespace. -/
def noLeadWs : List Char → Bool
  | [] => true
  | c :: _ => !isWs c

/-- The last character, if any, is not whitespace. -/
def noTrailWs : List Char → Bool
  | [] => true
  | [c] => !isWs c
  | _ :: c :: cs => noTrailWs (c :: cs)

theorem noDoubleWs_tail {a : Char} {l : List Char} (h : noDoubleWs (a :: l) = true) :
    noDoubleWs l = true := by
  cases l with
  | nil => rfl
  | cons b rest => exact (Bool.and_eq_true_iff.mp h).2

theorem noDoubleWs_cons_of_not_ws {a : Char} {l : List Char} (ha : isWs a = false)
    (hl : noDoubleWs l = true) : noDoubleWs (a :: l) = true := by
  cases l with
  | nil => rfl
  | cons b rest => simp [noDoubleWs, ha, hl]

theorem noDoubleWs_cons_of_noLead {a : Char} {l : List Char} (hl : noDoubleWs l = true)
    (hh : noLeadWs l = true) : noDoubleWs (a :: l) = true := by
  cases l with
  | nil => rfl
  | cons b rest =>
      simp only [noLeadWs, Bool.not_eq_true'] at hh
      simp [noDoubleWs, hh, hl]

theorem noDoubleWs_append_left {l₁ l₂ : List Char} (h : noDoubleWs (l₁ ++ l₂) = true) :
    noDoubleWs l₁ = true := by
  induction l₁ with
  | nil => rfl
  | cons a rest ih =>
      cases rest with
      | nil => rfl
      | cons b t =>
          simp only [List.cons_append, noDoubleWs, Bool.and_eq_true_iff] at h
          exact Bool.and_eq_true_iff.mpr ⟨h.1, ih h.2⟩

theorem noDoubleWs_append_right {l₁ l₂ : List Char} (h : noDoubleWs (l₁ ++ l₂) = true) :
    noDoubleWs l₂ = true := by
  induction l₁ with
  | nil => exact h
  | cons a rest ih => exact ih (noDoubleWs_tail h)

theorem noDoubleWs_append_of {l₁ l₂ : List Char} (h₁ : noDoubleWs l₁ = true)
    (h₂ : noDoubleWs l₂ = true) (ht : noTrailWs l₁ = true) :
    noDoubleWs (l₁ ++ l₂) = true := by
  induction l₁ with
  | nil => exact h₂
  | cons a rest ih =>
      cases rest with
      | nil =>
          simp only [noTrailWs, Bool.not_eq_true'] at ht
          exact noDoubleWs_cons_of_not_ws ht h₂
      | cons b t =>
          simp only [noDoubleWs, Bool.and_eq_true_iff] at h₁
          have : noDoubleWs ((b :: t) ++ l₂) = true := ih h₁.2 ht
          simp only [List.cons_append, noDoubleWs, Bool.and_eq_true_iff] at this ⊢
          exact ⟨h₁.1, this⟩

theorem noDoubleWs_take {l : List Char} (h : noDoubleWs l = true) (n : Nat) :
    noDoubleWs (l.take n) = true := by
  rw [← List.take_append_drop n l] at h
  exact noDoubleWs_append_left h

theorem noDoubleWs_dropWhile {l : List Char} (h : noDoubleWs l = true) :
    noDoubleWs (l.dropWhile isWs) = true := by
  have h2 : noDoubleWs (l.takeWhile isWs ++ l.dropWhile isWs) = true := by
    rw [List.takeWhile_append_dropWhile]; exact h
  exact noDoubleWs_append_right h2

theorem noLeadWs_dropWhile (l : List Char) : noLeadWs (l.dropWhile isWs) = true := by
  induction l with
  | nil => rfl
  | cons c cs ih =>
      by_cases hc : isWs c = true
      · simpa [List.dropWhile, hc] using ih
      · simp [List.dropWhile, hc, noLeadWs]

theorem noLeadWs_append_left {l₁ l₂ : List Char} (h : noLeadWs (l₁ ++ l₂) = true) :
    noLeadWs l₁ = true := by
  cases l₁ with
  | nil => rfl
  | cons a t => exact h

theorem noLeadWs_append {l₁ l₂ : List Char} (h₁ : noLeadWs l₁ = true)
    (h₂ : noLeadWs l₂ = true) : noLeadWs (l₁ ++ l₂) = true := by
  cases l₁ with
  | nil => exact h₂
  | cons a t => exact h₁

theorem noLeadWs_append_ne {l₁ l₂ : List Char} (h : l₁ ≠ []) :
    noLeadWs (l₁ ++ l₂) = noLeadWs l₁ := by
  cases l₁ with
  | nil => exact absurd rfl h
  | cons a t => rfl

theorem noLeadWs_take {l : List Char} (h : noLeadWs l = true) (n : Nat) :
    noLeadWs (l.take n) = true := by
  cases l with
  | nil => rw [List.take_nil]; rfl
  | cons a t => cases n with
      | zero => rfl
      | succ m => exact h

theorem noTrailWs_eq_noLead_reverse (l : List Char) :
    noTrailWs l = noLeadWs l.reverse := by
  induction l with
  | nil => rfl
  | cons a t ih =>
      cases t with
      | nil => rfl
      | cons b t' =>
          have hne : (b :: t').reverse ≠ [] := by simp
          calc noTrailWs (a :: b :: t') = noTrailWs (b :: t') := rfl
            _ = noLeadWs (b :: t').reverse := ih
            _ = noLeadWs ((b :: t').reverse ++ [a]) := (noLeadWs_append_ne hne).symm
            _ = noLeadWs (a :: b :: t').reverse := by congr 1; simp

theorem dropWhile_eq_self_of_noLead {l : List Char} (h : noLeadWs l = true) :
    l.dropWhile isWs = l := by
  cases l with
  | nil => rfl
  | cons a t =>
      simp only [noLeadWs, Bool.not_eq_true'] at h
      simp [List.dropWhile, h]

/-! ### rtrim: basic structure -/

theorem rtrim_append_eq (l : List Char) :
    rtrim l ++ (l.reverse.takeWhile isWs).reverse = l := by
  rw [rtrim, ← List.reverse_append, List.takeWhile_append_dropWhile, List.reverse_reverse]

theorem rtrim_length_le (l : List Char) : (rtrim l).length ≤ l.length := by
  conv_rhs => rw [← rtrim_append_eq l]
  rw [List.length_append]
  exact Nat.le_add_right _ _

theorem mem_of_mem_rtrim {c : Char} {l : List Char} (h : c ∈ rtrim l) : c ∈ l := by
  rw [← rtrim_append_eq l]
  exact List.mem_append.mpr (Or.inl h)

theorem noDoubleWs_rtrim {l : List Char} (h : noDoubleWs l = true) :
    noDoubleWs (rtrim l) = true :=
  noDoubleWs_append_left (by rw [rtrim_append_eq]; exact h)

theorem noLeadWs_rtrim {l : List Char} (h : noLeadWs l = true) :
    noLeadWs (rtrim l) = true :=
  noLeadWs_append_left (by rw [rtrim_append_eq]; exact h)

theorem noTrailWs_rtrim (l : List Char) : noTrailWs (rtrim l) = true := by
  rw [noTrailWs_eq_noLead_reverse, rtrim, List.reverse_reverse]
  exact noLeadWs_dropWhile _

theorem rtrim_eq_self {l : List Char} (h : noTrailWs l = true) : rtrim l = l := by
  rw [noTrailWs_eq_noLead_reverse] at h
  rw [rtrim, dropWhile_eq_self_of_noLead h, List.reverse_reverse]

theorem noTrailWs_append {l₁ l₂ : List Char} (h₂ : noTrailWs l₂ = true) (hne : l₂ ≠ []) :
    noTrailWs (l₁ ++ l₂) = true := by
  rw [noTrailWs_eq_noLead_reverse, List.reverse_append,
    noLeadWs_append_ne (by simpa using hne), ← noTrailWs_eq_noLead_reverse]
  exact h₂

/-! ### collapseAux: output shape and fixed point -/

theorem collapseAux_cons_ws {d : Char} (cs : List Char) (hd : isWs d = true) :
    collapseAux true (d :: cs) = collapseAux true cs ∧
      collapseAux false (d :: cs) = ' ' :: collapseAux true cs := by
  constructor <;> simp [collapseAux, hd]

theorem collapseAux_cons_not_ws (b : Bool) {d : Char} (cs : List Char)
    (hd : isWs d = false) : collapseAux b (d :: cs) = d :: collapseAux false cs := by
  simp [collapseAux, hd]

theorem collapse_noLead_true (l : List Char) : noLeadWs (collapseAux true l) = true := by
  induction l with
  | nil => rfl
  | cons c cs ih =>
      cases hc : isWs c with
      | true => rw [(collapseAux_cons_ws cs hc).1]; exact ih
      | false => rw [collapseAux_cons_not_ws true cs hc]; simp [noLeadWs, hc]

theorem collapse_mem {c : Char} {l : List Char} :
    ∀ b, c ∈ collapseAux b l → c = ' ' ∨ c ∈ l := by
  induction l with
  | nil => intro b h; simp [collapseAux] at h
  | cons d cs ih =>
      intro b h
      cases hd : isWs d with
      | true =>
          cases b with
          | true =>
              rw [(collapseAux_cons_ws cs hd).1] at h
              rcases ih true h with h' | h'
              · exact Or.inl h'
              · exact Or.inr (List.mem_cons_of_mem d h')
          | false =>
              rw [(collapseAux_cons_ws cs hd).2] at h
              rcases List.mem_cons.mp h with h' | h'
              · exact Or.inl h'
              · rcases ih true h' with h2 | h2
                · exact Or.inl h2
                · exact Or.inr (List.mem_cons_of_mem d h2)
      | false =>
          rw [collapseAux_cons_not_ws b cs hd] at h
          rcases List.mem_cons.mp h with h' | h'
          · exact Or.inr (by simp [h'])
          · rcases ih false h' with h2 | h2
            · exact Or.inl h2
            · exact Or.inr (List.mem_cons_of_mem d h2)

theorem collapse_ws_eq_space {c : Char} {l : List Char} :
    ∀ b, c ∈ collapseAux b l → isWs c = true → c = ' ' := by
  induction l with
  | nil => intro b h; simp [collapseAux] at h
  | cons d cs ih =>
      intro b h hws
      cases hd : isWs d with
      | true =>
          cases b with
          | true =>
              rw [(collapseAux_cons_ws cs hd).1] at h
              exact ih true h hws
          | false =>
              rw [(collapseAux_cons_ws cs hd).2] at h
              rcases List.mem_cons.mp h with h' | h'
              · exact h'
              · exact ih true h' hws
      | false =>
          rw [collapseAux_cons_not_ws b cs hd] at h
          rcases List.mem_cons.mp h with h' | h'
          · rw [h'] at hws; rw [hws] at hd; exact absurd hd (by simp)
          · exact ih false h' hws

theorem collapse_noDouble (l : List Char) : ∀ b, noDoubleWs (collapseAux b l) = true := by
  induction l with
  | nil => intro b; rfl
  | cons d cs ih =>
      intro b
      cases hd : isWs d with
      | true =>
          cases b with
          | true => rw [(collapseAux_cons_ws cs hd).1]; exact ih true
          | false =>
              rw [(collapseAux_cons_ws cs hd).2]
              exact noDoubleWs_cons_of_noLead (ih true) (collapse_noLead_true cs)
      | false =>
          rw [collapseAux_cons_not_ws b cs hd]
          exact noDoubleWs_cons_of_not_ws hd (ih false)

theorem collapse_fixed {l : List Char} (h1 : ∀ c ∈ l, isWs c = true → c = ' ')
    (h2 : noDoubleWs l = true) : collapseAux false l = l := by
  induction l with
  | nil => rfl
  | cons d cs ih =>
      cases hd : isWs d with
      | true =>
          have hds : d = ' ' := h1 d (List.mem_cons_self d cs) hd
          rw [(collapseAux_cons_ws cs hd).2, ← hds]
          cases cs with
          | nil => rfl
          | cons e cs' =>
              have hpair : isWs e = false := by
                simp only [noDoubleWs, Bool.and_eq_true_iff, Bool.not_eq_true',
                  Bool.and_eq_false_iff] at h2
                rcases h2.1 with h | h
                · rw [hd] at h; exact absurd h (by simp)
                · exact h
              have hrest : collapseAux false (e :: cs') = e :: cs' :=
                ih (fun c hc => h1 c (List.mem_cons_of_mem d hc)) (noDoubleWs_tail h2)
              rw [collapseAux_cons_not_ws true cs' hpair]
              rw [collapseAux_cons_not_ws false cs' hpair] at hrest
              rw [hrest]
      | false =>
          rw [collapseAux_cons_not_ws false cs hd]
          rw [ih (fun c hc => h1 c (List.mem_cons_of_mem d hc)) (noDoubleWs_tail h2)]

/-! ### bulletGo: sublist and fixed point -/

theorem bulletGo_sublist (l : List Char) : ∀ st, bulletGo st l <+ pend st ++ l := by
  induction l with
  | nil =>
      intro st
      cases st with
      | nl => exact List.Sublist.refl []
      | ls acc => simp [bulletGo, pend]
      | ad b => exact List.nil_sublist []
  | cons c cs ih =>
      intro st
      cases st with
      | nl =>
          simp only [bulletGo, pend, List.nil_append]
          refine List.Sublist.cons₂ c ?_
          by_cases hc : c = '\n'
          · simpa [hc, pend] using ih (.ls [])
          · simpa [hc, pend] using ih .nl
      | ls acc =>
          by_cases hws : isWs c = true
          · simp only [bulletGo, hws, if_true, pend]
            have := ih (.ls (c :: acc))
            simp only [pend, List.reverse_cons] at this
            simpa [List.append_assoc] using this
          · by_cases hdash : c = '-'
            · simp only [bulletGo, hws, if_false, hdash, if_true, pend, Bool.false_eq_true]
              have h1 : bulletGo (.ad false) cs <+ cs := by simpa [pend] using ih (.ad false)
              exact h1.trans ((List.sublist_cons_self '-' cs).trans
                (List.sublist_append_right acc.reverse ('-' :: cs)))
            · simp only [bulletGo, hws, hdash, if_false, pend, Bool.false_eq_true]
              exact List.Sublist.append_left
                (List.Sublist.cons₂ c (by simpa [pend] using ih .nl)) acc.reverse
      | ad b =>
          by_cases hws : isWs c = true
          · simp only [bulletGo, hws, if_true, pend, List.nil_append]
            exact ((by simpa [pend] using ih (.ad (c = '\n'))) :
              bulletGo (.ad (c = '\n')) cs <+ cs).trans (List.sublist_cons_self c cs)
          · by_cases hd : (b && c = '-') = true
            · simp only [bulletGo, hws, if_false, hd, if_true, pend, List.nil_append,
                Bool.false_eq_true]
              exact ((by simpa [pend] using ih (.ad false)) :
                bulletGo (.ad false) cs <+ cs).trans (List.sublist_cons_self c cs)
            · simp only [bulletGo, hws, hd, if_false, pend, List.nil_append,
                Bool.false_eq_true]
              exact List.Sublist.cons₂ c (by simpa [pend] using ih .nl)

theorem stripBullets_sublist (l : List Char) : stripBullets l <+ l := by
  simpa [pend] using bulletGo_sublist l (.ls [])

theorem bulletGo_nl_fixed {l : List Char} (h : '\n' ∉ l) : bulletGo .nl l = l := by
  induction l with
  | nil => rfl
  | cons c cs ih =>
      have hc : ¬(c = '\n') := fun hc => h (by simp [hc])
      simp only [bulletGo, hc, if_false]
      rw [ih (fun hin => h (List.mem_cons_of_mem c hin))]

theorem stripBullets_fixed {l : List Char} (h1 : noLeadWs l = true)
    (h2 : l.head? ≠ some '-') (h3 : '\n' ∉ l) : stripBullets l = l := by
  cases l with
  | nil => rfl
  | cons c cs =>
      simp only [noLeadWs, Bool.not_eq_true'] at h1
      have hdash : ¬(c = '-') := fun hc => h2 (by simp [hc])
      simp only [stripBullets, bulletGo, h1, if_false, hdash, List.reverse_nil,
        List.nil_append, Bool.false_eq_true]
      rw [bulletGo_nl_fixed (fun hin => h3 (List.mem_cons_of_mem c hin))]

/-! ### replNL and stripMd -/

theorem replNL_mem {c : Char} {l : List Char} (h : c ∈ replNL l) : c = ' ' ∨ c ∈ l := by
  rcases List.mem_map.mp h with ⟨a, ha, rfl⟩
  by_cases hna : a = '\n'
  · simp [hna]
  · simp [hna, ha]

theorem replNL_fixed {l : List Char} (h : '\n' ∉ l) : replNL l = l := by
  induction l with
  | nil => rfl
  | cons c cs ih =>
      have hc : ¬(c = '\n') := fun hc => h (by simp [hc])
      simp only [replNL, List.map_cons, hc, if_false]
      rw [show List.map (fun c => if c = '\n' then ' ' else c) cs = cs from
        ih (fun hin => h (List.mem_cons_of_mem c hin))]

theorem stripMd_not_md {c : Char} {l : List Char} (h : c ∈ stripMd l) :
    mdChars.contains c = false := by
  have := List.mem_filter.mp h
  simpa using this.2

theorem stripMd_fixed {l : List Char} (h : ∀ c ∈ l, mdChars.contains c = false) :
    stripMd l = l := by
  rw [stripMd]
  rw [List.filter_eq_self]
  intro a ha
  simpa using h a ha

/-! ### normalizeText: invariants of the normalized text -/

theorem mem_of_mem_dropWhile {c : Char} {l : List Char} (h : c ∈ l.dropWhile isWs) :
    c ∈ l := by
  rw [← List.takeWhile_append_dropWhile (p := isWs) (l := l)]
  exact List.mem_append.mpr (Or.inr h)

theorem mem_of_mem_strip {c : Char} {l : List Char} (h : c ∈ strip l) : c ∈ l :=
  mem_of_mem_dropWhile (mem_of_mem_rtrim h)

theorem normalize_wsOnly (x : List Char) :
    ∀ c ∈ normalizeText x, isWs c = true → c = ' ' := by
  intro c hc hws
  rw [normalizeText] at hc
  have h1 := mem_of_mem_strip hc
  rw [collapseWs] at h1
  exact collapse_ws_eq_space false h1 hws

theorem normalize_noDouble (x : List Char) : noDoubleWs (normalizeText x) = true := by
  rw [normalizeText, strip, ltrim]
  exact noDoubleWs_rtrim (noDoubleWs_dropWhile (collapse_noDouble _ false))

theorem normalize_noLead (x : List Char) : noLeadWs (normalizeText x) = true := by
  rw [normalizeText, strip, ltrim]
  exact noLeadWs_rtrim (noLeadWs_dropWhile _)

theorem normalize_noTrail (x : List Char) : noTrailWs (normalizeText x) = true := by
  rw [normalizeText, strip]
  exact noTrailWs_rtrim _

theorem normalize_not_md (x : List Char) :
    ∀ c ∈ normalizeText x, mdChars.contains c = false := by
  intro c hc
  rw [normalizeText] at hc
  have h1 := mem_of_mem_strip hc
  rw [collapseWs] at h1
  rcases collapse_mem false h1 with h | h
  · rw [h]; decide
  · rcases replNL_mem h with h2 | h2
    · rw [h2]; decide
    · exact stripMd_not_md ((stripBullets_sublist _).subset h2)

theorem normalize_no_nl (x : List Char) : '\n' ∉ normalizeText x := by
  intro h
  have := normalize_wsOnly x '\n' h (by decide)
  exact absurd this (by decide)

theorem normalize_fixed {t : List Char}
    (hmd : ∀ c ∈ t, mdChars.contains c = false)
    (hws : ∀ c ∈ t, isWs c = true → c = ' ')
    (hnd : noDoubleWs t = true) (hlead : noLeadWs t = true)
    (htrail : noTrailWs t = true) (hdash : t.head? ≠ some '-') :
    normalizeText t = t := by
  have hnl : '\n' ∉ t := fun hin => absurd (hws '\n' hin (by decide)) (by decide)
  rw [normalizeText, stripMd_fixed hmd, stripBullets_fixed hlead hdash hnl,
    replNL_fixed hnl, collapseWs, collapse_fixed hws hnd, strip, ltrim,
    dropWhile_eq_self_of_noLead hlead, rtrim_eq_self htrail]

theorem clean_text_of_ne {x : List Char} (hx : x ≠ []) :
    clean_text x = if 700 < (normalizeText x).length
      then rtrim ((normalizeText x).take 700) ++ truncSuffix
      else normalizeText x := by
  unfold clean_text
  rw [if_neg hx]

/-! ### Claims about the sanitizer -/

/-- C3 counterexample: the sanitizer is not idempotent. On "--a" the
bullet pattern removes only the first dash, so one pass gives "-a" and a
second pass gives "a". -/
theorem clean_text_not_idempotent :
    clean_text (clean_text (("--a").data)) ≠ clean_text (("--a").data) := by decide

/-- C3 amended: the sanitizer is idempotent on every input whose
normalized text is at most 700 characters long (no truncation) and does
not begin with a dash (so the line-start bullet pattern cannot fire a
second time). -/
theorem clean_text_idempotent_of_short_no_dash (x : List Char)
    (hlen : (normalizeText x).length ≤ 700)
    (hdash : (normalizeText x).head? ≠ some '-') :
    clean_text (clean_text x) = clean_text x := by
  by_cases hx : x = []
  · rw [hx]; rfl
  · have hcx : clean_text x = normalizeText x := by
      rw [clean_text_of_ne hx, if_neg (by omega)]
    rw [hcx]
    by_cases ht : normalizeText x = []
    · rw [ht]; rfl
    · rw [clean_text_of_ne ht,
        normalize_fixed (normalize_not_md x) (normalize_wsOnly x)
          (normalize_noDouble x) (normalize_noLead x) (normalize_noTrail x) hdash,
        if_neg (by omega)]

/-- Witness for C3's amended theorem at the concrete input "a b". -/
theorem clean_text_idempotent_witness :
    (normalizeText (("a b").data)).length ≤ 700 ∧
      (normalizeText (("a b").data)).head? ≠ some '-' ∧
      clean_text (clean_text (("a b").data)) = clean_text (("a b").data) :=
  ⟨by decide, by decide,
    clean_text_idempotent_of_short_no_dash (("a b").data) (by decide) (by decide)⟩

/-- C4 counterexample: on the spec's example input the sanitizer does not
return "Hello world More info ref"; the mid-line dash is not at a line
start, so the bullet pattern leaves it in place. -/
theorem clean_text_example_ne_spec :
    clean_text (("**Hello** - world\n\nMore (info) [ref]").data) ≠
      ("Hello world More info ref").data := by decide

/-- C4 amended: on the input "**Hello** - world\n\nMore (info) [ref]" the
sanitizer returns exactly "Hello - world More info ref": markers and
bracket characters are stripped, newlines collapse to single spaces, but
the dash stays because the bullet pattern applies only at line starts. -/
theorem clean_text_example_eval :
    clean_text (("**Hello** - world\n\nMore (info) [ref]").data) =
      ("Hello - world More info ref").data := by decide

/-- C8: the sanitizer's output never exceeds 700 characters plus the
truncation suffix; the output is the normalized text when that is at most
700 characters long, and otherwise the normalized text truncated to 700
characters, right-trimmed, with the suffix appended. -/
theorem clean_text_length_bound (x : List Char) :
    (clean_text x).length ≤ 700 + truncSuffix.length ∧
      (((normalizeText x).length ≤ 700 ∧ clean_text x = normalizeText x) ∨
        (700 < (normalizeText x).length ∧
          clean_text x = rtrim ((normalizeText x).take 700) ++ truncSuffix)) := by
  by_cases hx : x = []
  · subst hx
    exact ⟨by decide, Or.inl ⟨by decide, by decide⟩⟩
  · rw [clean_text_of_ne hx]
    by_cases hlen : 700 < (normalizeText x).length
    · rw [if_pos hlen]
      refine ⟨?_, Or.inr ⟨hlen, rfl⟩⟩
      rw [List.length_append]
      have h1 : (rtrim ((normalizeText x).take 700)).length ≤ 700 :=
        le_trans (rtrim_length_le _)
          (by rw [List.length_take]; exact min_le_left _ _)
      exact Nat.add_le_add_right h1 _
    · rw [if_neg hlen]
      exact ⟨le_trans (Nat.le_of_not_lt hlen) (Nat.le_add_right 700 _),
        Or.inl ⟨Nat.le_of_not_lt hlen, rfl⟩⟩

/-- C9: for every non-empty input the sanitizer's output holds none of the
markdown characters and no newline, has no two adjacent whitespace
characters, and neither starts nor ends with whitespace. -/
theorem clean_text_output_invariants (x : List Char) (hx : x ≠ []) :
    (∀ c ∈ clean_text x, mdChars.contains c = false ∧ c ≠ '\n') ∧
      noDoubleWs (clean_text x) = true ∧ noLeadWs (clean_text x) = true ∧
      noTrailWs (clean_text x) = true := by
  rw [clean_text_of_ne hx]
  by_cases hlen : 700 < (normalizeText x).length
  · rw [if_pos hlen]
    have hsuf : ∀ c ∈ truncSuffix, mdChars.contains c = false ∧ c ≠ '\n' := by decide
    refine ⟨?_, ?_, ?_, ?_⟩
    · intro c hc
      rcases List.mem_append.mp hc with h | h
      · have hmem : c ∈ normalizeText x :=
          List.take_subset 700 (normalizeText x) (mem_of_mem_rtrim h)
        exact ⟨normalize_not_md x c hmem,
          fun hcn => normalize_no_nl x (hcn ▸ hmem)⟩
      · exact hsuf c h
    · exact noDoubleWs_append_of
        (noDoubleWs_rtrim (noDoubleWs_take (normalize_noDouble x) 700))
        (by decide) (noTrailWs_rtrim _)
    · exact noLeadWs_append
        (noLeadWs_rtrim (noLeadWs_take (normalize_noLead x) 700)) (by decide)
    · exact noTrailWs_append (by decide) (by decide)
  · rw [if_neg hlen]
    refine ⟨?_, normalize_noDouble x, normalize_noLead x, normalize_noTrail x⟩
    intro c hc
    exact ⟨normalize_not_md x c hc, fun hcn => normalize_no_nl x (hcn ▸ hc)⟩

/-- Witness for C9 at the concrete input "a". -/
theorem clean_text_output_invariants_witness :
    (("a").data ≠ ([] : List Char)) ∧
      ((∀ c ∈ clean_text (("a").data), mdChars.contains c = false ∧ c ≠ '\n') ∧
        noDoubleWs (clean_text (("a").data)) = true ∧
        noLeadWs (clean_text (("a").data)) = true ∧
        noTrailWs (clean_text (("a").data)) = true) :=
  ⟨by decide, clean_text_output_invariants (("a").data) (by decide)⟩

/-! ### Claims about extraction and dispatch -/

theorem fallbackScan_eq_spec {slots : Slots}
    (h : slots.all (fun p => p.2.isSome) = true) :
    fallbackScan slots = .ok (specFirstNonEmpty slots) := by
  induction slots with
  | nil => rfl
  | cons p rest ih =>
      obtain ⟨k, so⟩ := p
      rw [List.all_cons, Bool.and_eq_true_iff] at h
      cases so with
      | none => exact absurd h.1 (by simp)
      | some si =>
          cases hv : si.value with
          | none => simp only [fallbackScan, specFirstNonEmpty, hv]; exact ih h.2
          | some v =>
              cases v with
              | nil => simp only [fallbackScan, specFirstNonEmpty, hv]; exact ih h.2
              | cons c cs => simp only [fallbackScan, specFirstNonEmpty, hv]

theorem extract_query_eq (e : Event) (h : requestType e = some intentRequestType) :
    extract_query e =
      match slotTruthyValue (slotsOf e) (("query").data) with
      | some v => .ok (some v)
      | none =>
          match slotTruthyValue (slotsOf e) (("Query").data) with
          | some v => .ok (some v)
          | none => fallbackScan (slotsOf e) := by
  rw [extract_query, if_pos h]

theorem extract_query_isOk (e : Event) (h : wellFormedSlots e = true) :
    ∃ q, extract_query e = .ok q := by
  by_cases hrt : requestType e = some intentRequestType
  · rw [extract_query_eq e hrt]
    cases h1 : slotTruthyValue (slotsOf e) (("query").data) with
    | some v => exact ⟨some v, rfl⟩
    | none =>
        cases h2 : slotTruthyValue (slotsOf e) (("Query").data) with
        | some v => exact ⟨some v, rfl⟩
        | none => exact ⟨specFirstNonEmpty (slotsOf e), fallbackScan_eq_spec h⟩
  · rw [extract_query, if_neg hrt]
    exact ⟨none, rfl⟩

/-- C5 counterexample: on an IntentRequest whose slots dictionary stores a
null entry, the fallback loop evaluates None.get("value") and raises an
AttributeError instead of returning the none sentinel. -/
theorem extract_query_raises_on_null_slot :
    extract_query nullSlotEvent = .error () := by decide

/-- C5 amended: slot extraction never raises provided every slot entry in
the mapping is an object (it may still lack a value field or hold an
empty value); absence of a query is then signaled by returning none. -/
theorem extract_query_total_of_wellformed (e : Event) (h : wellFormedSlots e = true) :
    ∃ q, extract_query e = .ok q :=
  extract_query_isOk e h

/-- Witness for C5's amended theorem at the empty event. -/
theorem extract_query_total_witness :
    wellFormedSlots { request := none } = true ∧
      ∃ q, extract_query { request := none } = .ok q :=
  ⟨by decide, extract_query_total_of_wellformed { request := none } (by decide)⟩

/-- C2: on every IntentRequest event whose slot entries are objects,
extraction returns exactly what the spec describes: the value of a
non-empty "query"/"Query" slot if present (regardless of other slots),
else the first slot value in stored order, else none. -/
theorem extract_query_refines_spec (e : Event) (hwf : wellFormedSlots e = true)
    (hint : requestType e = some intentRequestType) :
    extract_query e = .ok (extractQuerySpec (slotsOf e)) := by
  rw [extract_query_eq e hint]
  unfold extractQuerySpec
  cases h1 : slotTruthyValue (slotsOf e) (("query").data) with
  | some v => rfl
  | none =>
      cases h2 : slotTruthyValue (slotsOf e) (("Query").data) with
      | some v => rfl
      | none => exact fallbackScan_eq_spec hwf

/-- Witness for C2 at a concrete event. -/
theorem extract_query_refines_spec_witness :
    wellFormedSlots queryEvent = true ∧
      requestType queryEvent = some intentRequestType ∧
      extract_query queryEvent = .ok (extractQuerySpec (slotsOf queryEvent)) :=
  ⟨by decide, by decide, extract_query_refines_spec queryEvent (by decide) (by decide)⟩

/-- C1 counterexample: the handler does not return an envelope for every
event; on an IntentRequest with a null slot entry the AttributeError from
extract_query escapes. -/
theorem handler_raises_on_null_slot :
    handler none .urlError nullSlotEvent = .error () := by decide

/-- C1 amended: for every event whose slot entries are all objects, the
handler returns exactly the envelope with version "1.0", a PlainText
outputSpeech, and shouldEndSession false, on every branch. -/
theorem handler_envelope_of_wellformed (key : Option (List Char)) (net : NetOutcome)
    (e : Event) (h : wellFormedSlots e = true) :
    ∃ t, handler key net e = .ok
      { version := ("1.0").data
        response :=
          { outputSpeech := { otype := ("PlainText").data, text := t }
            shouldEndSession := false } } := by
  unfold handler
  by_cases h1 : requestType e = some launchRequestType
  · rw [if_pos h1]
    exact ⟨greetingMsg, rfl⟩
  · rw [if_neg h1]
    by_cases h2 : requestType e = some intentRequestType
    · rw [if_pos h2]
      by_cases h3 : intentNameOf e = fallbackIntentName
      · rw [if_pos h3]
        exact ⟨fallbackPromptMsg, rfl⟩
      · rw [if_neg h3]
        obtain ⟨q, hq⟩ := extract_query_isOk e h
        rw [hq]
        cases q with
        | none => exact ⟨noTopicMsg, rfl⟩
        | some v =>
            cases v with
            | nil => exact ⟨noTopicMsg, rfl⟩
            | cons c cs => exact ⟨call_perplexity key net (c :: cs), rfl⟩
    · rw [if_neg h2]
      exact ⟨goodbyeMsg, rfl⟩

/-- Witness for C1's amended theorem at the empty event. -/
theorem handler_envelope_witness :
    wellFormedSlots { request := none } = true ∧
      ∃ t, handler none .urlError { request := none } = .ok
        { version := ("1.0").data
          response :=
            { outputSpeech := { otype := ("PlainText").data, text := t }
              shouldEndSession := false } } :=
  ⟨by decide, handler_envelope_of_wellformed none .urlError { request := none } (by decide)⟩

/-- C10: when the request key is absent or the request type is neither
LaunchRequest nor IntentRequest, the handler returns the fixed farewell
envelope and raises nothing. -/
theorem handler_goodbye_on_other (key : Option (List Char)) (net : NetOutcome) (e : Event)
    (h : e.request = none ∨
      (requestType e ≠ some launchRequestType ∧ requestType e ≠ some intentRequestType)) :
    handler key net e = .ok (speak goodbyeMsg) := by
  have h' : requestType e ≠ some launchRequestType ∧
      requestType e ≠ some intentRequestType := by
    rcases h with h | h
    · rw [requestType, h]
      exact ⟨by simp, by simp⟩
    · exact h
  unfold handler
  rw [if_neg h'.1, if_neg h'.2]

/-- Witness for C10 at the empty event. -/
theorem handler_goodbye_witness :
    (({ request := none } : Event).request = none ∨
      (requestType { request := none } ≠ some launchRequestType ∧
        requestType { request := none } ≠ some intentRequestType)) ∧
      handler none .urlError { request := none } = .ok (speak goodbyeMsg) :=
  ⟨Or.inl rfl, handler_goodbye_on_other none .urlError { request := none } (Or.inl rfl)⟩

/-- C6: with no truthy API key configured, the upstream client returns the
fixed "not configured" message, and its result does not depend on the
network at all (no call is made). -/
theorem call_perplexity_no_key (key : Option (List Char)) (q : List Char)
    (net net' : NetOutcome) (h : truthyKey key = false) :
    call_perplexity key net q = notConfiguredMsg ∧
      call_perplexity key net q = call_perplexity key net' q := by
  constructor <;> simp [call_perplexity, h]

/-- Witness for C6 with an absent key. -/
theorem call_perplexity_no_key_witness :
    truthyKey none = false ∧
      (call_perplexity none .urlError (("x").data) = notConfiguredMsg ∧
        call_perplexity none .urlError (("x").data) =
          call_perplexity none .otherError (("x").data)) :=
  ⟨by decide, call_perplexity_no_key none (("x").data) .urlError .otherError (by decide)⟩

/-- C7: with a truthy key, an HTTP error status yields the fixed
authentication-failure string for 401 and the generic "problem
contacting" string otherwise; the client returns a string in both cases
rather than propagating the error. -/
theorem call_perplexity_http_error (key : Option (List Char)) (q : List Char)
    (code : Nat) (h : truthyKey key = true) :
    call_perplexity key (.httpError code) q =
      if code = 401 then authFailMsg else problemMsg := by
  simp [call_perplexity, h]

/-- Witness for C7 at status 401. -/
theorem call_perplexity_http_error_witness :
    truthyKey (some (("k").data)) = true ∧
      call_perplexity (some (("k").data)) (.httpError 401) (("x").data) =
        (if 401 = 401 then authFailMsg else problemMsg) :=
  ⟨by decide, call_perplexity_http_error (some (("k").data)) (("x").data) 401 (by decide)⟩

end AlexaPplx
